import Mathlib

/-!
Verification of `src/app/post-thread-page/helpers/thread-manager.ts`.

The TypeScript module maintains a map of flattened comment threads.  We embed
it shallowly: `Post` mirrors the `Post` record (with its recursive, possibly
`null` `Comments` array), threads hold chains whose slots are `Option Post`
because the JavaScript walker can push `undefined` into a chain (see
`walkSubcomments`), the `Map<string, Thread>` becomes an insertion-ordered
association list with JavaScript `Map.set`/`Map.delete` semantics, and
operations that can throw a `TypeError` (accessing a field of
`undefined`/`null`) return `Option`/fault results, returning `none` exactly on
the paths where the original throws.  JavaScript numbers are modelled as `Int`
(all arithmetic here is small-integer increments and decrements).

Reference identity of the cached `threads` array is modelled by an allocation
tag (`Nat`) drawn from a monotone counter: reading the getter when the cache
is empty allocates a fresh tag.  The cached array aliases the live `Thread`
objects of the map, and every operation that changes the structure of the map
clears the cache, so while a cache is alive its contents coincide with
`Array.from(threadMap.values())`; the model therefore stores only the tag and
recomputes the value list from the map on each read.
-/

/-- The `Post` record of the source: `PostHashHex`, `Comments: Post[] | null`,
`CommentCount`, `IsHidden`. -/
inductive Post where
  | mk (hash : String) (comments : Option (List Post)) (cnt : Int) (hidden : Bool)

def Post.PostHashHex : Post → String
  | .mk h _ _ _ => h

def Post.Comments : Post → Option (List Post)
  | .mk _ c _ _ => c

def Post.CommentCount : Post → Int
  | .mk _ _ n _ => n

def Post.IsHidden : Post → Bool
  | .mk _ _ _ b => b

/-- The spread `{ ...p, CommentCount: n }`: a shallow copy of `p` with the
count replaced. -/
def Post.withCount : Post → Int → Post
  | .mk h c _ b, n => .mk h c n b

/-- The in-place assignment `p.IsHidden = b`, as the resulting record value. -/
def Post.withHidden : Post → Bool → Post
  | .mk h c n _, b => .mk h c n b

@[simp] theorem Post.withCount_hash (p : Post) (n : Int) :
    (p.withCount n).PostHashHex = p.PostHashHex := by
  cases p; rfl

@[simp] theorem Post.withCount_cnt (p : Post) (n : Int) :
    (p.withCount n).CommentCount = n := by
  cases p; rfl

@[simp] theorem Post.withHidden_val (p : Post) (b : Bool) :
    (p.withHidden b).IsHidden = b := by
  cases p; rfl

/-- A `Thread`: the flattened view.  A chain slot is `Option Post` because
`walkSubcomments` pushes `undefined` (here `none`) into the chain when it
recurses into `Comments[0]` of an *empty* `Comments` array. -/
structure Thread where
  parent : Post
  children : List (Option Post)

/-- `walkSubcomments(subComment, cb)` with `cb` collecting the visited nodes,
as the list of pushed values.  The source first calls `cb(subComment)` and
then, whenever `Array.isArray(subComment?.Comments)` holds, recurses on
`subComment.Comments[0]`.  When `Comments` is the empty array, `Comments[0]`
is `undefined`: the recursive call passes `undefined` to `cb` (pushed here as
`none`) and then stops, since `undefined?.Comments` is not an array. -/
def walkSubcomments : Post → List (Option Post)
  | .mk h none n b => [some (.mk h none n b)]
  | .mk h (some []) n b => [some (.mk h (some []) n b), none]
  | .mk h (some (c :: rest)) n b => some (.mk h (some (c :: rest)) n b) :: walkSubcomments c

/-- `flattenThread(parent)`: children collects `walkSubcomments` over each
element of `parent.Comments` when that field is an array, else stays empty. -/
def flattenThread (parent : Post) : Thread :=
  { parent := parent,
    children :=
      match parent.Comments with
      | none => []
      | some cs => cs.flatMap walkSubcomments }

@[simp] theorem flattenThread_parent (p : Post) : (flattenThread p).parent = p := rfl

/-! ### The `Map<string, Thread>` model

A JavaScript `Map` iterates in insertion order; `set` on an existing key
replaces the value in place (keeping the key's position), `set` on a fresh key
appends, and `delete` removes the entry.  We model it as an ordered
association list. -/

/-- `map.get(k)`: the value at the first (and, for genuine `Map` states, only)
entry with key `k`. -/
def mapGet : List (String × Thread) → String → Option Thread
  | [], _ => none
  | e :: rest, k => if e.1 = k then some e.2 else mapGet rest k

/-- `map.set(k, v)`: replace in place if `k` is present, else append. -/
def mapSet : List (String × Thread) → String → Thread → List (String × Thread)
  | [], k, v => [(k, v)]
  | e :: rest, k, v => if e.1 = k then (k, v) :: rest else e :: mapSet rest k v

/-- `map.delete(k)`. -/
def mapDelete : List (String × Thread) → String → List (String × Thread)
  | [], _ => []
  | e :: rest, k => if e.1 = k then rest else e :: mapDelete rest k

/-- `Array.from(map.values())`. -/
def mapValues (m : List (String × Thread)) : List Thread :=
  m.map (·.2)

/-- The keys of the map, in order. -/
def mapKeys (m : List (String × Thread)) : List String :=
  m.map (·.1)

/-- `Array.prototype.findIndex(child => child.PostHashHex === pid)` over a
chain.  Walking hits `child.PostHashHex` on every inspected slot, so an
`undefined` slot (`none`) reached before a match throws a `TypeError`
(modelled as fault = `none`); otherwise the result is the first matching index
or `-1`. -/
def findIndexJS : List (Option Post) → String → Option Int
  | [], _ => some (-1)
  | none :: _, _ => none
  | some p :: rest, pid =>
      if p.PostHashHex = pid then some 0
      else (findIndexJS rest pid).map (fun i => if 0 ≤ i then i + 1 else i)

/-- `Array.prototype.slice(b, e)` with JavaScript's negative-index
normalization: a negative bound counts from the end, clamped at `0`; a bound
past the length is clamped at the length. -/
def jsSlice (l : List (Option Post)) (b e : Int) : List (Option Post) :=
  let len : Int := l.length
  let b' : Int := if b < 0 then max (len + b) 0 else min b len
  let e' : Int := if e < 0 then max (len + e) 0 else min e len
  (l.drop b'.toNat).take (e' - b').toNat

/-! ### `ThreadManager` state

`threadArrayCache` stores the allocation tag of the cached array (see the
header comment); `nextRef` is the allocator for fresh tags. -/

structure ThreadManager where
  threadMap : List (String × Thread)
  threadArrayCache : Option Nat
  nextRef : Nat

namespace ThreadManager

/-- The `threads` getter: returns the cached array when present, otherwise
materializes `Array.from(this.threadMap.values())`, caches it and returns it.
The result is the pair (array reference tag, array contents); reading when the
cache is empty allocates a fresh tag. -/
def threadsRead (s : ThreadManager) : (Nat × List Thread) × ThreadManager :=
  match s.threadArrayCache with
  | some r => ((r, mapValues s.threadMap), s)
  | none =>
      ((s.nextRef, mapValues s.threadMap),
       { s with threadArrayCache := some s.nextRef, nextRef := s.nextRef + 1 })

/-- The `threadCount` getter. -/
def threadCount (s : ThreadManager) : Nat :=
  s.threadMap.length

/-- `getThread(parentPostHashHex)`. -/
def getThread (k : String) (s : ThreadManager) : Option Thread :=
  mapGet s.threadMap k

/-- `appendComment(comment)`: busts the cache (`if (cache) cache = undefined`
leaves it absent in either case) and sets the flattened thread under
`comment.PostHashHex`. -/
def appendComment (c : Post) (s : ThreadManager) : ThreadManager :=
  { s with threadArrayCache := none,
           threadMap := mapSet s.threadMap c.PostHashHex (flattenThread c) }

/-- `addThreads(comments)`: a no-op unless `comments` is an array, else
`appendComment` on each element in order. -/
def addThreads (comments : Option (List Post)) (s : ThreadManager) : ThreadManager :=
  match comments with
  | none => s
  | some cs => cs.foldl (fun acc c => appendComment c acc) s

/-- The constructor `new ThreadManager(rootPost)`: fields start as an empty
map and an absent cache, then `addThreads(rootPost.Comments)` runs. -/
def init (rootPost : Post) : ThreadManager :=
  addThreads rootPost.Comments ⟨[], none, 0⟩

/-- `prependComment(comment)`: grabs `this.threads` (through the getter),
busts the cache, then rebuilds the map with the new flattened thread first and
every previous thread after it, keyed by its `parent.PostHashHex`. -/
def prependComment (c : Post) (s : ThreadManager) : ThreadManager :=
  let res := threadsRead s
  { res.2 with
    threadArrayCache := none,
    threadMap :=
      res.1.2.foldl (fun m t => mapSet m t.parent.PostHashHex t)
        (mapSet [] c.PostHashHex (flattenThread c)) }

/-- `removeThread(parentPostHashHex)`: busts the cache and deletes the key. -/
def removeThread (k : String) (s : ThreadManager) : ThreadManager :=
  { s with threadArrayCache := none, threadMap := mapDelete s.threadMap k }

/-- `reset()`. -/
def reset (s : ThreadManager) : ThreadManager :=
  { s with threadMap := [], threadArrayCache := none }

/-- In `addReplyToComment`/`hideComment` the looked-up thread object is
mutated in place; the map keeps the entry at its position with the same key.
Note the cache is *not* touched. -/
def setThread (s : ThreadManager) (k : String) (t : Thread) : ThreadManager :=
  { s with threadMap := mapSet s.threadMap k t }

/-- Cases 3 and 4 of `addReplyToComment`: reply to a thread parent that
already has replies (count bump only), else the mid-chain `findIndex`/slice
splice.  The spread of the chain is
`[...slice(0, i), replaceNode, ...slice(i + 1, len)]` where `i` may be `-1`
when nothing matches, and `replaceNode` is a shallow copy of the *passed*
`replyingToComment` with its count incremented. -/
def addReplyCase34 (tid : String) (replyingToComment : Post) (s : ThreadManager)
    (thread : Thread) : Option ThreadManager :=
  if replyingToComment.PostHashHex = tid then
    some (setThread s tid
      ⟨thread.parent.withCount (thread.parent.CommentCount + 1), thread.children⟩)
  else
    let replaceNode := replyingToComment.withCount (replyingToComment.CommentCount + 1)
    match findIndexJS thread.children replyingToComment.PostHashHex with
    | none => none
    | some idx =>
        some (setThread s tid
          ⟨thread.parent,
           jsSlice thread.children 0 idx ++
             some replaceNode ::
               jsSlice thread.children (idx + 1) (thread.children.length : Int)⟩)

/-- `addReplyToComment(threadPostHashHex, replyingToComment, reply)`.

`none` models the `TypeError` paths: an unknown thread id (the source
dereferences `thread.children` unconditionally) and a `findIndex` walk that
hits an `undefined` chain slot.  All fault points precede every assignment to
the thread, so a fault leaves the manager unchanged.

`lastChild` is `thread.children.length ? thread.children[len - 1] : null`;
both `null` (empty chain) and an `undefined` last slot are falsy and make
`lastChild?.PostHashHex` come out `undefined`, so the two collapse to `none`
here. -/
def addReplyToComment (tid : String) (replyingToComment reply : Post)
    (s : ThreadManager) : Option ThreadManager :=
  match mapGet s.threadMap tid with
  | none => none
  | some thread =>
    let lastChild : Option Post :=
      match thread.children.getLast? with
      | none => none
      | some none => none
      | some (some p) => some p
    if replyingToComment.PostHashHex = tid ∧ lastChild.isNone then
      -- increment the parent count && push its first child
      some (setThread s tid
        ⟨thread.parent.withCount (thread.parent.CommentCount + 1), [some reply]⟩)
    else
      match lastChild with
      | some lc =>
        if replyingToComment.PostHashHex = lc.PostHashHex then
          -- increment count for reply parent and push a new last node
          some (setThread s tid
            ⟨thread.parent,
             jsSlice thread.children 0 ((thread.children.length : Int) - 1) ++
               [some (lc.withCount (lc.CommentCount + 1)), some reply]⟩)
        else addReplyCase34 tid replyingToComment s thread
      | none => addReplyCase34 tid replyingToComment s thread

/-- `hideComment(commentToHide, parentComment, threadPostHashHex)`.

The first component is the passed `commentToHide` after the in-place
`commentToHide.IsHidden = true`, which runs before any fault.  The second is
`none` on the `TypeError` paths: unknown thread id (fields of the `undefined`
thread are dereferenced in both branches), a `findIndex` walk hitting an
`undefined` slot, and a missed lookup (`indexToDecrement = -1`, where
`thread.children[-1].CommentCount` reads a field of `undefined`).  All fault
points precede the assignment into `thread.children`. -/
def hideComment (commentToHide parentComment : Post) (tid : String)
    (s : ThreadManager) : Post × Option ThreadManager :=
  let c' := commentToHide.withHidden true
  (c',
    match mapGet s.threadMap tid with
    | none => none
    | some thread =>
      if parentComment.PostHashHex = tid then
        some (setThread s tid
          ⟨thread.parent.withCount (thread.parent.CommentCount - 1), thread.children⟩)
      else
        match findIndexJS thread.children parentComment.PostHashHex with
        | none => none
        | some idx =>
          if idx < 0 then none
          else
            match thread.children[idx.toNat]? with
            | some (some q) =>
                some (setThread s tid
                  ⟨thread.parent,
                   thread.children.set idx.toNat
                     (some (q.withCount (q.CommentCount - 1)))⟩)
            | _ => none)

end ThreadManager

/-! ### List helpers -/

theorem take_append_self {α : Type} (as bs : List α) :
    (as ++ bs).take as.length = as := by
  induction as with
  | nil => rfl
  | cons a as ih => simp [ih]

theorem drop_append_self {α : Type} (as bs : List α) :
    (as ++ bs).drop as.length = bs := by
  induction as with
  | nil => rfl
  | cons a as ih => simp [ih]

theorem get?_append_cons {α : Type} (as : List α) (b : α) (bs : List α) :
    (as ++ b :: bs).get? as.length = some b := by
  induction as with
  | nil => rfl
  | cons a as ih => simpa using ih

theorem set_append_cons {α : Type} (as : List α) (b : α) (bs : List α) (v : α) :
    (as ++ b :: bs).set as.length v = as ++ v :: bs := by
  induction as with
  | nil => rfl
  | cons a as ih => simp [List.set, ih]

/-! ### `jsSlice` and `findIndexJS` lemmas -/

theorem jsSlice_zero_coe (l : List (Option Post)) (n : Nat) (h : n ≤ l.length) :
    jsSlice l 0 (n : Int) = l.take n := by
  unfold jsSlice
  have h0 : ¬ ((0 : Int) < 0) := by omega
  have h1 : ¬ ((n : Int) < 0) := by omega
  simp only [h0, if_false, h1]
  have hb : min (0 : Int) (l.length : Int) = 0 := by omega
  have he : min (n : Int) (l.length : Int) = n := by omega
  rw [hb, he]
  simp

theorem jsSlice_zero_negOne (l : List (Option Post)) :
    jsSlice l 0 (-1) = l.dropLast := by
  unfold jsSlice
  have h0 : ¬ ((0 : Int) < 0) := by omega
  have h1 : (-1 : Int) < 0 := by omega
  simp only [h0, if_false, h1, if_true]
  have hb : min (0 : Int) (l.length : Int) = 0 := by omega
  rw [hb]
  have he : max ((l.length : Int) + -1) 0 = ((l.length - 1 : Nat) : Int) := by omega
  rw [he]
  simp [List.dropLast_eq_take]

theorem jsSlice_coe_len (l : List (Option Post)) (n : Nat) :
    jsSlice l (n : Int) (l.length : Int) = l.drop n := by
  unfold jsSlice
  have h1 : ¬ ((n : Int) < 0) := by omega
  have h2 : ¬ ((l.length : Int) < 0) := by omega
  simp only [h1, if_false, h2]
  have he : min (l.length : Int) (l.length : Int) = (l.length : Int) := by omega
  rw [he]
  rcases le_or_lt (n : Int) (l.length : Int) with hle | hlt
  · have hb : min (n : Int) (l.length : Int) = (n : Int) := by omega
    rw [hb]
    have ht : ((l.length : Int) - (n : Int)).toNat = l.length - n := by omega
    rw [ht]
    simp
  · have hb : min (n : Int) (l.length : Int) = (l.length : Int) := by omega
    rw [hb]
    have hd : l.drop n = [] := List.drop_eq_nil_of_le (by omega)
    have hd2 : l.drop ((l.length : Int)).toNat = [] := by
      simp
    rw [hd, hd2]
    simp

theorem jsSlice_zero_full (l : List (Option Post)) :
    jsSlice l 0 (l.length : Int) = l := by
  have := jsSlice_zero_coe l l.length (le_refl _)
  simpa using this

theorem drop_append_cons {α : Type} (as : List α) (b : α) (bs : List α) :
    (as ++ b :: bs).drop (as.length + 1) = bs := by
  induction as with
  | nil => rfl
  | cons a as ih => exact ih

/-! ### Map lemmas -/

theorem mapGet_set_self (m : List (String × Thread)) (k : String) (v : Thread) :
    mapGet (mapSet m k v) k = some v := by
  induction m with
  | nil => simp [mapSet, mapGet]
  | cons e rest ih =>
      by_cases h : e.1 = k
      · simp [mapSet, h, mapGet]
      · simp [mapSet, h, mapGet, ih]

theorem mapGet_mem (m : List (String × Thread)) (k : String) (t : Thread)
    (h : mapGet m k = some t) : (k, t) ∈ m := by
  induction m with
  | nil => simp [mapGet] at h
  | cons e rest ih =>
      by_cases he : e.1 = k
      · simp only [mapGet, he, if_true, Option.some_inj] at h
        subst he
        subst h
        simp
      · simp only [mapGet, he, if_false] at h
        exact List.mem_cons_of_mem _ (ih h)

theorem mapSet_fresh (m : List (String × Thread)) (k : String) (v : Thread)
    (h : mapGet m k = none) : mapSet m k v = m ++ [(k, v)] := by
  induction m with
  | nil => rfl
  | cons e rest ih =>
      by_cases he : e.1 = k
      · simp [mapGet, he] at h
      · simp only [mapGet, he, if_false] at h
        simp [mapSet, he, ih h]

theorem mapValues_set_fresh (m : List (String × Thread)) (k : String) (v : Thread)
    (h : mapGet m k = none) :
    mapValues (mapSet m k v) = mapValues m ++ [v] := by
  rw [mapSet_fresh m k v h]
  simp [mapValues]

/-- The key sequence after a `set` on a present key is unchanged. -/
theorem mapKeys_set_mem (m : List (String × Thread)) (k : String) (v : Thread)
    (h : k ∈ mapKeys m) : mapKeys (mapSet m k v) = mapKeys m := by
  induction m with
  | nil => simp [mapKeys] at h
  | cons e rest ih =>
      by_cases he : e.1 = k
      · simp [mapSet, he, mapKeys]
      · have h' : k ∈ mapKeys rest := by
          simp only [mapKeys, List.map_cons, List.mem_cons] at h
          rcases h with h | h
          · exact absurd h.symm he
          · exact h
        have hstep : mapSet (e :: rest) k v = e :: mapSet rest k v := by
          simp [mapSet, he]
        rw [hstep]
        show e.1 :: mapKeys (mapSet rest k v) = e.1 :: mapKeys rest
        rw [ih h']

/-- When the key is fresh, `set` extends the key sequence by the key. -/
theorem mapKeys_set_fresh (m : List (String × Thread)) (k : String) (v : Thread)
    (h : mapGet m k = none) : mapKeys (mapSet m k v) = mapKeys m ++ [k] := by
  rw [mapSet_fresh m k v h]
  simp [mapKeys]

theorem mapGet_none_iff (m : List (String × Thread)) (k : String) :
    mapGet m k = none ↔ k ∉ mapKeys m := by
  induction m with
  | nil => simp [mapGet, mapKeys]
  | cons e rest ih =>
      simp only [mapGet, mapKeys, List.map_cons, List.mem_cons]
      by_cases he : e.1 = k
      · simp [he]
      · simp only [he, if_false]
        rw [ih]
        simp only [mapKeys]
        constructor
        · intro h hk
          rcases hk with hk | hk
          · exact he hk.symm
          · exact h hk
        · intro h hk
          exact h (Or.inr hk)

theorem mapDelete_sublist (m : List (String × Thread)) (k : String) :
    (mapDelete m k).Sublist m := by
  induction m with
  | nil => simp [mapDelete]
  | cons e rest ih =>
      by_cases he : e.1 = k
      · simp only [mapDelete, he, if_true]
        exact List.sublist_cons_self _ _
      · simp only [mapDelete, he, if_false]
        exact ih.cons₂ _

/-! ### The key-coherence and key-uniqueness invariants -/

/-- Every entry of the map is keyed by its thread's `parent.PostHashHex`. -/
def keyCoherent (m : List (String × Thread)) : Prop :=
  ∀ e ∈ m, e.2.parent.PostHashHex = e.1

/-- The map's keys are pairwise distinct (a genuine `Map` state). -/
def keysNodup (m : List (String × Thread)) : Prop :=
  (mapKeys m).Nodup

theorem keyCoherent_get (m : List (String × Thread)) (k : String) (t : Thread)
    (hc : keyCoherent m) (h : mapGet m k = some t) :
    t.parent.PostHashHex = k :=
  hc (k, t) (mapGet_mem m k t h)

theorem keyCoherent_set (m : List (String × Thread)) (k : String) (v : Thread)
    (hc : keyCoherent m) (hv : v.parent.PostHashHex = k) :
    keyCoherent (mapSet m k v) := by
  induction m with
  | nil =>
      intro e he
      simp [mapSet] at he
      subst he
      exact hv
  | cons e rest ih =>
      by_cases he : e.1 = k
      · intro x hx
        simp only [mapSet, he, if_true] at hx
        rcases List.mem_cons.mp hx with rfl | hx
        · exact hv
        · exact hc x (List.mem_cons_of_mem _ hx)
      · intro x hx
        simp only [mapSet, he, if_false] at hx
        rcases List.mem_cons.mp hx with rfl | hx
        · exact hc x (by simp)
        · exact ih (fun y hy => hc y (List.mem_cons_of_mem _ hy)) x hx

theorem keyCoherent_delete (m : List (String × Thread)) (k : String)
    (hc : keyCoherent m) : keyCoherent (mapDelete m k) :=
  fun e he => hc e ((mapDelete_sublist m k).subset he)

theorem keysNodup_set (m : List (String × Thread)) (k : String) (v : Thread)
    (hn : keysNodup m) : keysNodup (mapSet m k v) := by
  by_cases hk : k ∈ mapKeys m
  · rw [keysNodup, mapKeys_set_mem m k v hk]
    exact hn
  · have hfresh : mapGet m k = none := (mapGet_none_iff m k).mpr hk
    rw [keysNodup, mapKeys_set_fresh m k v hfresh]
    simpa [List.nodup_append] using ⟨hn, hk⟩

theorem keysNodup_delete (m : List (String × Thread)) (k : String)
    (hn : keysNodup m) : keysNodup (mapDelete m k) :=
  List.Nodup.sublist ((mapDelete_sublist m k).map _) hn

@[simp] theorem setThread_map (s : ThreadManager) (k : String) (t : Thread) :
    (ThreadManager.setThread s k t).threadMap = mapSet s.threadMap k t := rfl

@[simp] theorem setThread_cache (s : ThreadManager) (k : String) (t : Thread) :
    (ThreadManager.setThread s k t).threadArrayCache = s.threadArrayCache := rfl

@[simp] theorem setThread_nextRef (s : ThreadManager) (k : String) (t : Thread) :
    (ThreadManager.setThread s k t).nextRef = s.nextRef := rfl

/-- Structure of any successful run of cases 3/4: the looked-up thread is
re-stored under the same key with its parent's `PostHashHex` untouched. -/
theorem addReplyCase34_spec (tid : String) (p : Post) (s : ThreadManager)
    (T : Thread) (s' : ThreadManager)
    (h : ThreadManager.addReplyCase34 tid p s T = some s') :
    ∃ t', s' = ThreadManager.setThread s tid t' ∧
      t'.parent.PostHashHex = T.parent.PostHashHex := by
  unfold ThreadManager.addReplyCase34 at h
  by_cases hp : p.PostHashHex = tid
  · simp only [hp, if_true, Option.some_inj] at h
    exact ⟨_, h.symm, by simp⟩
  · rcases hF : findIndexJS T.children p.PostHashHex with _ | idx
    · simp [hp, hF] at h
    · simp only [hp, if_false, hF, Option.some_inj] at h
      exact ⟨_, h.symm, by simp⟩

/-- Structure of any successful `addReplyToComment`: the thread found at the
key is replaced, in place and cache-untouched, by a thread whose parent keeps
its `PostHashHex`. -/
theorem addReply_spec (tid : String) (p r : Post) (s s' : ThreadManager)
    (h : ThreadManager.addReplyToComment tid p r s = some s') :
    ∃ T t', mapGet s.threadMap tid = some T ∧
      s' = ThreadManager.setThread s tid t' ∧
      t'.parent.PostHashHex = T.parent.PostHashHex := by
  cases hT : mapGet s.threadMap tid with
  | none => simp [ThreadManager.addReplyToComment, hT] at h
  | some T =>
      refine ⟨T, ?_⟩
      simp only [ThreadManager.addReplyToComment, hT] at h
      rcases hL : T.children.getLast? with _ | ⟨_ | q⟩
      · rw [hL] at h
        by_cases hp : p.PostHashHex = tid
        · simp [hp] at h
          exact ⟨_, rfl, h.symm, by simp⟩
        · simp [hp] at h
          obtain ⟨t', h1, h2⟩ := addReplyCase34_spec tid p s T s' h
          exact ⟨t', rfl, h1, h2⟩
      · rw [hL] at h
        by_cases hp : p.PostHashHex = tid
        · simp [hp] at h
          exact ⟨_, rfl, h.symm, by simp⟩
        · simp [hp] at h
          obtain ⟨t', h1, h2⟩ := addReplyCase34_spec tid p s T s' h
          exact ⟨t', rfl, h1, h2⟩
      · rw [hL] at h
        by_cases hq : p.PostHashHex = q.PostHashHex
        · simp [hq] at h
          exact ⟨_, rfl, h.symm, by simp⟩
        · simp [hq] at h
          obtain ⟨t', h1, h2⟩ := addReplyCase34_spec tid p s T s' h
          exact ⟨t', rfl, h1, h2⟩

/-- Structure of any successful `hideComment`: the thread found at the key is
replaced, in place and cache-untouched, by a thread whose parent keeps its
`PostHashHex`. -/
theorem hide_spec (c p : Post) (tid : String) (s s' : ThreadManager)
    (h : (ThreadManager.hideComment c p tid s).2 = some s') :
    ∃ T t', mapGet s.threadMap tid = some T ∧
      s' = ThreadManager.setThread s tid t' ∧
      t'.parent.PostHashHex = T.parent.PostHashHex := by
  cases hT : mapGet s.threadMap tid with
  | none => simp [ThreadManager.hideComment, hT] at h
  | some T =>
      refine ⟨T, ?_⟩
      simp only [ThreadManager.hideComment, hT] at h
      by_cases hp : p.PostHashHex = tid
      · simp [hp] at h
        exact ⟨_, rfl, h.symm, by simp⟩
      · simp only [hp, if_false] at h
        rcases hF : findIndexJS T.children p.PostHashHex with _ | idx
        · rw [hF] at h
          simp at h
        · rw [hF] at h
          by_cases hneg : idx < 0
          · simp [hneg] at h
          · simp only [hneg, if_false] at h
            rcases hG : T.children[idx.toNat]? with _ | ⟨_ | q⟩
            · rw [hG] at h
              simp at h
            · rw [hG] at h
              simp at h
            · rw [hG] at h
              simp only [Option.some_inj] at h
              exact ⟨_, rfl, h.symm, by simp⟩

/-! ### Reachable manager states

Faults (`TypeError`s) in `addReplyToComment`/`hideComment` occur before any
assignment into the manager, so a faulting call leaves the state unchanged
and contributes no new reachable state. -/

inductive Reachable : ThreadManager → Prop where
  | construct (rootPost : Post) : Reachable (ThreadManager.init rootPost)
  | readThreads {s : ThreadManager} :
      Reachable s → Reachable (ThreadManager.threadsRead s).2
  | append {s : ThreadManager} (c : Post) :
      Reachable s → Reachable (ThreadManager.appendComment c s)
  | addMore {s : ThreadManager} (cs : Option (List Post)) :
      Reachable s → Reachable (ThreadManager.addThreads cs s)
  | prepend {s : ThreadManager} (c : Post) :
      Reachable s → Reachable (ThreadManager.prependComment c s)
  | remove {s : ThreadManager} (k : String) :
      Reachable s → Reachable (ThreadManager.removeThread k s)
  | resetStep {s : ThreadManager} :
      Reachable s → Reachable (ThreadManager.reset s)
  | reply {s s' : ThreadManager} (tid : String) (p r : Post) :
      Reachable s → ThreadManager.addReplyToComment tid p r s = some s' →
      Reachable s'
  | hide {s s' : ThreadManager} (c p : Post) (tid : String) (po : Post) :
      Reachable s → ThreadManager.hideComment c p tid s = (po, some s') →
      Reachable s'

theorem keyCoherent_foldl_append (cs : List Post) (s : ThreadManager)
    (h : keyCoherent s.threadMap) :
    keyCoherent (cs.foldl (fun acc c => ThreadManager.appendComment c acc) s).threadMap := by
  induction cs generalizing s with
  | nil => exact h
  | cons c rest ih =>
      exact ih _ (keyCoherent_set _ _ _ h (by simp))

theorem keysNodup_foldl_append (cs : List Post) (s : ThreadManager)
    (h : keysNodup s.threadMap) :
    keysNodup (cs.foldl (fun acc c => ThreadManager.appendComment c acc) s).threadMap := by
  induction cs generalizing s with
  | nil => exact h
  | cons c rest ih =>
      exact ih _ (keysNodup_set _ _ _ h)

theorem keyCoherent_foldl_set (ts : List Thread) (m : List (String × Thread))
    (h : keyCoherent m) :
    keyCoherent (ts.foldl (fun m t => mapSet m t.parent.PostHashHex t) m) := by
  induction ts generalizing m with
  | nil => exact h
  | cons t rest ih =>
      exact ih _ (keyCoherent_set _ _ _ h rfl)

theorem keysNodup_foldl_set (ts : List Thread) (m : List (String × Thread))
    (h : keysNodup m) :
    keysNodup (ts.foldl (fun m t => mapSet m t.parent.PostHashHex t) m) := by
  induction ts generalizing m with
  | nil => exact h
  | cons t rest ih =>
      exact ih _ (keysNodup_set _ _ _ h)

/-- Key coherence holds in every reachable manager state. -/
theorem reachable_keyCoherent {s : ThreadManager} (h : Reachable s) :
    keyCoherent s.threadMap := by
  induction h with
  | construct rootPost =>
      unfold ThreadManager.init ThreadManager.addThreads
      cases rootPost.Comments with
      | none => intro e he; simp at he
      | some cs =>
          exact keyCoherent_foldl_append cs _ (fun e he => by simp at he)
  | readThreads _ ih =>
      unfold ThreadManager.threadsRead
      split
      · exact ih
      · exact ih
  | append c _ ih =>
      exact keyCoherent_set _ _ _ ih (by simp)
  | addMore cs _ ih =>
      unfold ThreadManager.addThreads
      cases cs with
      | none => exact ih
      | some l => exact keyCoherent_foldl_append l _ ih
  | prepend c _ ih =>
      unfold ThreadManager.prependComment
      exact keyCoherent_foldl_set _ _
        (keyCoherent_set [] _ _ (fun e he => by simp at he) (by simp))
  | remove k _ ih =>
      exact keyCoherent_delete _ _ ih
  | resetStep _ ih =>
      intro e he
      simp [ThreadManager.reset] at he
  | reply tid p r _ hstep ih =>
      obtain ⟨T, t', hT, rfl, hhash⟩ := addReply_spec _ _ _ _ _ hstep
      have hkey : T.parent.PostHashHex = tid := keyCoherent_get _ _ _ ih hT
      exact keyCoherent_set _ _ _ ih (by rw [hhash, hkey])
  | hide c p tid po _ hstep ih =>
      have h2 : (ThreadManager.hideComment c p tid _).2 = some _ :=
        congrArg Prod.snd hstep
      obtain ⟨T, t', hT, rfl, hhash⟩ := hide_spec _ _ _ _ _ h2
      have hkey : T.parent.PostHashHex = tid := keyCoherent_get _ _ _ ih hT
      exact keyCoherent_set _ _ _ ih (by rw [hhash, hkey])

/-- Key uniqueness holds in every reachable manager state. -/
theorem reachable_keysNodup {s : ThreadManager} (h : Reachable s) :
    keysNodup s.threadMap := by
  induction h with
  | construct rootPost =>
      unfold ThreadManager.init ThreadManager.addThreads
      cases rootPost.Comments with
      | none => simp [keysNodup, mapKeys]
      | some cs => exact keysNodup_foldl_append cs _ (by simp [keysNodup, mapKeys])
  | readThreads _ ih =>
      unfold ThreadManager.threadsRead
      split
      · exact ih
      · exact ih
  | append c _ ih =>
      exact keysNodup_set _ _ _ ih
  | addMore cs _ ih =>
      unfold ThreadManager.addThreads
      cases cs with
      | none => exact ih
      | some l => exact keysNodup_foldl_append l _ ih
  | prepend c _ ih =>
      unfold ThreadManager.prependComment
      exact keysNodup_foldl_set _ _ (keysNodup_set [] _ _ (by simp [keysNodup, mapKeys]))
  | remove k _ ih =>
      exact keysNodup_delete _ _ ih
  | resetStep _ ih =>
      simp [ThreadManager.reset, keysNodup, mapKeys]
  | reply tid p r _ hstep ih =>
      obtain ⟨T, t', hT, rfl, hhash⟩ := addReply_spec _ _ _ _ _ hstep
      exact keysNodup_set _ _ _ ih
  | hide c p tid po _ hstep ih =>
      have h2 : (ThreadManager.hideComment c p tid _).2 = some _ :=
        congrArg Prod.snd hstep
      obtain ⟨T, t', hT, rfl, hhash⟩ := hide_spec _ _ _ _ _ h2
      exact keysNodup_set _ _ _ ih

/-- When every slot of the chain holds a genuine post whose id differs from
`pid`, the `findIndex` walk completes and reports `-1`. -/
theorem findIndexJS_none (l : List (Option Post)) (pid : String)
    (h : ∀ o ∈ l, ∃ q, o = some q ∧ q.PostHashHex ≠ pid) :
    findIndexJS l pid = some (-1) := by
  induction l with
  | nil => rfl
  | cons o rest ih =>
      obtain ⟨q, rfl, hq⟩ := h o (by simp)
      have hrest := ih (fun o ho => h o (by simp [ho]))
      simp [findIndexJS, hq, hrest]

/-- When the slots before position `as.length` are genuine non-matching posts
and the slot there holds a genuine matching post, `findIndex` reports that
position. -/
theorem findIndexJS_append (as : List (Option Post)) (y : Post)
    (bs : List (Option Post)) (pid : String)
    (hpre : ∀ o ∈ as, ∃ q, o = some q ∧ q.PostHashHex ≠ pid)
    (hy : y.PostHashHex = pid) :
    findIndexJS (as ++ some y :: bs) pid = some (as.length : Int) := by
  induction as with
  | nil => simp [findIndexJS, hy]
  | cons o rest ih =>
      obtain ⟨q, rfl, hq⟩ := hpre o (by simp)
      have hrest := ih (fun o ho => hpre o (by simp [ho]))
      have hnn : (0 : Int) ≤ (rest.length : Int) := Int.natCast_nonneg _
      simp only [List.cons_append, findIndexJS, hq, if_false]
      rw [show rest.append (some y :: bs) = rest ++ some y :: bs from rfl, hrest]
      simp only [Option.map_some, hnn, if_true, List.length_cons]
      congr 1


/-! ### Execution lemmas: the four `addReplyToComment` cases and the
`hideComment` branches, under the hypotheses that select each branch. -/

/-- Unknown thread id: `thread.children` is a field of `undefined`, a
`TypeError`. -/
theorem addReply_unknown (tid : String) (p r : Post) (s : ThreadManager)
    (h : mapGet s.threadMap tid = none) :
    ThreadManager.addReplyToComment tid p r s = none := by
  simp [ThreadManager.addReplyToComment, h]

/-- Unknown thread id in `hideComment`: `IsHidden` is still set first, then
both branches dereference a field of `undefined`. -/
theorem hide_unknown (c p : Post) (tid : String) (s : ThreadManager)
    (h : mapGet s.threadMap tid = none) :
    ThreadManager.hideComment c p tid s = (c.withHidden true, none) := by
  simp [ThreadManager.hideComment, h]

/-- Case 1, new chain start: replying to the thread id with a falsy
`lastChild` (here: no children at all). -/
theorem addReply_newChain (tid : String) (p r : Post) (s : ThreadManager)
    (T : Thread) (hT : mapGet s.threadMap tid = some T)
    (hp : p.PostHashHex = tid) (hc : T.children = []) :
    ThreadManager.addReplyToComment tid p r s =
      some (ThreadManager.setThread s tid
        ⟨T.parent.withCount (T.parent.CommentCount + 1), [some r]⟩) := by
  simp [ThreadManager.addReplyToComment, hT, hc, hp]

/-- Case 2, append to tail: the last chain slot holds a genuine post `X` and
the reply targets its id.  The last slot is replaced by a copy of `X` with
the count bumped and the reply is appended; the parent is copied unchanged. -/
theorem addReply_tail (tid : String) (p r : Post) (s : ThreadManager)
    (T : Thread) (cs : List (Option Post)) (X : Post)
    (hT : mapGet s.threadMap tid = some T)
    (hc : T.children = cs ++ [some X])
    (hp : p.PostHashHex = X.PostHashHex) :
    ThreadManager.addReplyToComment tid p r s =
      some (ThreadManager.setThread s tid
        ⟨T.parent, cs ++ [some (X.withCount (X.CommentCount + 1)), some r]⟩) := by
  have hL : T.children.getLast? = some (some X) := by
    rw [hc, List.getLast?_append_cons]
    rfl
  have hslice : jsSlice T.children 0 ((T.children.length : Int) - 1) = cs := by
    rw [hc]
    have hlen : ((cs ++ [some X]).length : Int) - 1 = (cs.length : Int) := by
      simp
    rw [hlen, jsSlice_zero_coe _ _ (by simp)]
    exact take_append_self cs [some X]
  simp only [ThreadManager.addReplyToComment, hT, hL, Option.isNone_some,
    Bool.false_eq_true, and_false, if_false, hp, if_true, hslice]

/-- Case 3, reply to the thread root when children exist (and the tail does
not match): only the parent count is bumped; the chain stays put. -/
theorem addReply_root (tid : String) (p r : Post) (s : ThreadManager)
    (T : Thread) (cs : List (Option Post)) (X : Post)
    (hT : mapGet s.threadMap tid = some T)
    (hc : T.children = cs ++ [some X])
    (hp : p.PostHashHex = tid) (hX : X.PostHashHex ≠ tid) :
    ThreadManager.addReplyToComment tid p r s =
      some (ThreadManager.setThread s tid
        ⟨T.parent.withCount (T.parent.CommentCount + 1), T.children⟩) := by
  have hL : T.children.getLast? = some (some X) := by
    rw [hc, List.getLast?_append_cons]
    rfl
  have htx : ¬ (tid = X.PostHashHex) := fun hh => hX hh.symm
  simp only [ThreadManager.addReplyToComment, hT, hL, Option.isNone_some,
    Bool.false_eq_true, and_false, if_false, hp, htx,
    ThreadManager.addReplyCase34, eq_self_iff_true, if_true]

/-- Case 4 with a genuine mid-chain match at position `as.length` (not the
last slot): that slot is replaced by a copy of the *passed* `p` with its
count bumped; the reply is not inserted. -/
theorem addReply_mid (tid : String) (p r : Post) (s : ThreadManager)
    (T : Thread) (as : List (Option Post)) (y : Post) (bs : List (Option Post))
    (hT : mapGet s.threadMap tid = some T)
    (hp : p.PostHashHex ≠ tid)
    (hc : T.children = as ++ some y :: bs)
    (hbs : bs ≠ [])
    (hpre : ∀ o ∈ as, ∃ q, o = some q ∧ q.PostHashHex ≠ p.PostHashHex)
    (hy : y.PostHashHex = p.PostHashHex)
    (hlast : ∀ q, bs.getLast? = some (some q) → q.PostHashHex ≠ p.PostHashHex) :
    ThreadManager.addReplyToComment tid p r s =
      some (ThreadManager.setThread s tid
        ⟨T.parent, as ++ some (p.withCount (p.CommentCount + 1)) :: bs⟩) := by
  have hF : findIndexJS T.children p.PostHashHex = some (as.length : Int) := by
    rw [hc]
    exact findIndexJS_append as y bs _ hpre hy
  have hL : T.children.getLast? = bs.getLast? := by
    rw [hc, List.getLast?_append_cons]
    exact List.getLast?_append_of_ne_nil [some y] hbs
  have hs1 : jsSlice T.children 0 ((as.length : Int)) = as := by
    rw [hc, jsSlice_zero_coe _ _ (by simp)]
    exact take_append_self as (some y :: bs)
  have hs2 : jsSlice T.children ((as.length : Int) + 1) ((T.children.length : Int)) = bs := by
    have hcast : ((as.length : Int) + 1) = ((as.length + 1 : Nat) : Int) := by push_cast; ring
    rw [hcast, jsSlice_coe_len, hc, drop_append_cons]
  have hcase : ThreadManager.addReplyCase34 tid p s T =
      some (ThreadManager.setThread s tid
        ⟨T.parent, as ++ some (p.withCount (p.CommentCount + 1)) :: bs⟩) := by
    simp only [ThreadManager.addReplyCase34, hp, if_false, hF, hs1, hs2]
  rcases hbl : bs.getLast? with _ | ⟨_ | q⟩
  · exact absurd (List.getLast?_eq_none_iff.mp hbl) hbs
  · simp only [ThreadManager.addReplyToComment, hT, hL, hbl, Option.isNone_none,
      hp, false_and, if_false, hcase]
  · have hq : p.PostHashHex ≠ q.PostHashHex := by
      have := hlast q hbl
      exact fun hh => this hh.symm
    simp only [ThreadManager.addReplyToComment, hT, hL, hbl, Option.isNone_some,
      Bool.false_eq_true, and_false, if_false, hq, hcase]

/-- Case 4 with no match anywhere in the chain (all slots genuine,
none matching): `findIndex` yields `-1`, `slice(0, -1)` drops the last
element, and `slice(0, len)` duplicates the whole chain: far from a no-op. -/
theorem addReply_noMatch (tid : String) (p r : Post) (s : ThreadManager)
    (T : Thread)
    (hT : mapGet s.threadMap tid = some T)
    (hp : p.PostHashHex ≠ tid)
    (hall : ∀ o ∈ T.children, ∃ q, o = some q ∧ q.PostHashHex ≠ p.PostHashHex) :
    ThreadManager.addReplyToComment tid p r s =
      some (ThreadManager.setThread s tid
        ⟨T.parent,
         T.children.dropLast ++ some (p.withCount (p.CommentCount + 1)) :: T.children⟩) := by
  have hF : findIndexJS T.children p.PostHashHex = some (-1) :=
    findIndexJS_none _ _ hall
  have hs1 : jsSlice T.children 0 (-1) = T.children.dropLast :=
    jsSlice_zero_negOne _
  have hs2 : jsSlice T.children (-1 + 1) ((T.children.length : Int)) = T.children := by
    norm_num
    exact jsSlice_zero_full _
  have hcase : ThreadManager.addReplyCase34 tid p s T =
      some (ThreadManager.setThread s tid
        ⟨T.parent,
         T.children.dropLast ++ some (p.withCount (p.CommentCount + 1)) :: T.children⟩) := by
    simp only [ThreadManager.addReplyCase34, hp, if_false, hF, hs1, hs2]
  rcases hbl : T.children.getLast? with _ | ⟨_ | q⟩
  · simp only [ThreadManager.addReplyToComment, hT, hbl, Option.isNone_none,
      hp, false_and, if_false, hcase]
  · have := hall none (List.mem_of_getLast?_eq_some hbl)
    simp at this
  · have hq : p.PostHashHex ≠ q.PostHashHex := by
      obtain ⟨q', hq', hne⟩ := hall (some q) (List.mem_of_getLast?_eq_some hbl)
      rw [Option.some_inj] at hq'
      subst hq'
      exact fun hh => hne hh.symm
    simp only [ThreadManager.addReplyToComment, hT, hbl, Option.isNone_some,
      Bool.false_eq_true, and_false, if_false, hq, hcase]

/-- `hideComment` targeting the thread root: the passed comment is marked
hidden and the parent's count is decremented on a shallow copy. -/
theorem hide_root (c p : Post) (tid : String) (s : ThreadManager)
    (T : Thread) (hT : mapGet s.threadMap tid = some T)
    (hp : p.PostHashHex = tid) :
    ThreadManager.hideComment c p tid s =
      (c.withHidden true,
       some (ThreadManager.setThread s tid
         ⟨T.parent.withCount (T.parent.CommentCount - 1), T.children⟩)) := by
  simp [ThreadManager.hideComment, hT, hp]

/-- `hideComment` targeting a genuine chain element at position `as.length`:
that slot is replaced by a copy with a decremented count; the rest of the
chain and the parent stay put. -/
theorem hide_chain (c p : Post) (tid : String) (s : ThreadManager)
    (T : Thread) (as : List (Option Post)) (y : Post) (bs : List (Option Post))
    (hT : mapGet s.threadMap tid = some T)
    (hp : p.PostHashHex ≠ tid)
    (hc : T.children = as ++ some y :: bs)
    (hpre : ∀ o ∈ as, ∃ q, o = some q ∧ q.PostHashHex ≠ p.PostHashHex)
    (hy : y.PostHashHex = p.PostHashHex) :
    ThreadManager.hideComment c p tid s =
      (c.withHidden true,
       some (ThreadManager.setThread s tid
         ⟨T.parent, as ++ some (y.withCount (y.CommentCount - 1)) :: bs⟩)) := by
  have hF : findIndexJS T.children p.PostHashHex = some (as.length : Int) := by
    rw [hc]
    exact findIndexJS_append as y bs _ hpre hy
  have hneg : ¬ ((as.length : Int) < 0) := by omega
  have hG : T.children[((as.length : Int)).toNat]? = some (some y) := by
    have ht : ((as.length : Int)).toNat = as.length := by omega
    rw [ht, hc, ← List.get?_eq_getElem?]
    exact get?_append_cons as (some y) bs
  have hset : T.children.set ((as.length : Int)).toNat
      (some (y.withCount (y.CommentCount - 1))) =
      as ++ some (y.withCount (y.CommentCount - 1)) :: bs := by
    have ht : ((as.length : Int)).toNat = as.length := by omega
    rw [ht, hc]
    exact set_append_cons as (some y) bs _
  simp only [ThreadManager.hideComment, hT, hp, if_false, hF, hneg, hG, hset]

/-- `hideComment` whose `parentComment` matches nothing (all slots genuine,
none matching): `findIndex` yields `-1` and `thread.children[-1].CommentCount`
faults; the comment was already marked hidden, the thread is untouched. -/
theorem hide_noMatch (c p : Post) (tid : String) (s : ThreadManager)
    (T : Thread)
    (hT : mapGet s.threadMap tid = some T)
    (hp : p.PostHashHex ≠ tid)
    (hall : ∀ o ∈ T.children, ∃ q, o = some q ∧ q.PostHashHex ≠ p.PostHashHex) :
    ThreadManager.hideComment c p tid s = (c.withHidden true, none) := by
  have hF : findIndexJS T.children p.PostHashHex = some (-1) :=
    findIndexJS_none _ _ hall
  have hneg : (-1 : Int) < 0 := by omega
  simp only [ThreadManager.hideComment, hT, hp, if_false, hF, hneg, if_true]

/-! ### Cache-tag lemmas for the `threads` getter -/

/-- Well-formed allocator: any live cache tag was allocated earlier than the
next fresh tag.  Holds for every state the manager actually builds. -/
def cacheWF (s : ThreadManager) : Prop :=
  ∀ r, s.threadArrayCache = some r → r < s.nextRef

theorem threadsRead_of_cache_some (s : ThreadManager) (r : Nat)
    (h : s.threadArrayCache = some r) :
    ThreadManager.threadsRead s = ((r, mapValues s.threadMap), s) := by
  simp [ThreadManager.threadsRead, h]

theorem threadsRead_tag_of_none (s : ThreadManager)
    (h : s.threadArrayCache = none) :
    (ThreadManager.threadsRead s).1.1 = s.nextRef := by
  simp [ThreadManager.threadsRead, h]

/-- After a read the cache holds exactly the returned array's tag. -/
theorem threadsRead_cache_after (s : ThreadManager) :
    ((ThreadManager.threadsRead s).2).threadArrayCache =
      some ((ThreadManager.threadsRead s).1.1) := by
  cases h : s.threadArrayCache with
  | none => simp [ThreadManager.threadsRead, h]
  | some r => simp [ThreadManager.threadsRead, h]

theorem threadsRead_nextRef_after (s : ThreadManager) :
    (ThreadManager.threadsRead s).1.1 < ((ThreadManager.threadsRead s).2).nextRef ∨
      ¬ cacheWF s := by
  cases h : s.threadArrayCache with
  | none =>
      left
      simp [ThreadManager.threadsRead, h]
  | some r =>
      by_cases hwf : cacheWF s
      · left
        simpa [ThreadManager.threadsRead, h] using hwf r h
      · right
        exact hwf

/-- The returned tag is below the post-read allocator, given a well-formed
allocator. -/
theorem threadsRead_tag_lt (s : ThreadManager) (hwf : cacheWF s) :
    (ThreadManager.threadsRead s).1.1 < ((ThreadManager.threadsRead s).2).nextRef := by
  rcases threadsRead_nextRef_after s with h | h
  · exact h
  · exact absurd hwf h

theorem threadsRead_values (s : ThreadManager) :
    (ThreadManager.threadsRead s).1.2 = mapValues s.threadMap := by
  cases h : s.threadArrayCache with
  | none => simp [ThreadManager.threadsRead, h]
  | some r => simp [ThreadManager.threadsRead, h]

/-! ### `prependComment` ordering machinery -/

theorem mapGet_set_ne (m : List (String × Thread)) (k : String) (v : Thread)
    (q : String) (h : q ≠ k) : mapGet (mapSet m k v) q = mapGet m q := by
  induction m with
  | nil =>
      have h1 : ¬ (k = q) := fun hh => h hh.symm
      simp only [mapSet, mapGet, h1, if_false]
  | cons e rest ih =>
      by_cases he : e.1 = k
      · have h1 : ¬ (k = q) := fun hh => h hh.symm
        have h2 : ¬ (e.1 = q) := by rw [he]; exact h1
        simp only [mapSet, he, if_true, mapGet, h1, h2, if_false]
      · simp only [mapSet, he, if_false, mapGet, ih]

theorem mem_values (m : List (String × Thread)) (t : Thread)
    (h : t ∈ mapValues m) : ∃ k, (k, t) ∈ m := by
  obtain ⟨⟨a, b⟩, he, heq⟩ := List.mem_map.mp h
  cases heq
  exact ⟨a, he⟩

theorem values_keys_of_coherent (m : List (String × Thread))
    (hc : keyCoherent m) :
    (mapValues m).map (fun t => t.parent.PostHashHex) = mapKeys m := by
  unfold mapValues mapKeys
  rw [List.map_map]
  exact List.map_congr_left (fun e he => hc e he)

/-- Folding `set` over threads with fresh, pairwise-distinct keys appends
them in order. -/
theorem mapValues_foldl_set (ts : List Thread) (m : List (String × Thread))
    (hfresh : ∀ t ∈ ts, mapGet m t.parent.PostHashHex = none)
    (hnd : (ts.map (fun t => t.parent.PostHashHex)).Nodup) :
    mapValues (ts.foldl (fun acc t => mapSet acc t.parent.PostHashHex t) m) =
      mapValues m ++ ts := by
  induction ts generalizing m with
  | nil => simp
  | cons t rest ih =>
      simp only [List.foldl_cons]
      have hfresh2 : ∀ u ∈ rest,
          mapGet (mapSet m t.parent.PostHashHex t) u.parent.PostHashHex = none := by
        intro u hu
        have hne : u.parent.PostHashHex ≠ t.parent.PostHashHex := by
          simp only [List.map_cons, List.nodup_cons] at hnd
          intro hh
          exact hnd.1 (by rw [← hh]; exact List.mem_map_of_mem _ hu)
        rw [mapGet_set_ne _ _ _ _ hne]
        exact hfresh u (List.mem_cons_of_mem _ hu)
      have hnd2 : (rest.map (fun t => t.parent.PostHashHex)).Nodup := by
        simp only [List.map_cons, List.nodup_cons] at hnd
        exact hnd.2
      rw [ih _ hfresh2 hnd2, mapValues_set_fresh _ _ _ (hfresh t (by simp))]
      simp

/-- `prependComment` on a coherent, key-unique map with a fresh comment id:
the flattened new thread comes first, all previous threads follow in their
previous order. -/
theorem prepend_values (s : ThreadManager) (N : Post)
    (hco : keyCoherent s.threadMap) (hnd : keysNodup s.threadMap)
    (hN : mapGet s.threadMap N.PostHashHex = none) :
    mapValues (ThreadManager.prependComment N s).threadMap =
      flattenThread N :: mapValues s.threadMap := by
  have hfresh : ∀ t ∈ mapValues s.threadMap,
      mapGet [(N.PostHashHex, flattenThread N)] t.parent.PostHashHex = none := by
    intro t ht
    obtain ⟨k, hk⟩ := mem_values _ _ ht
    have hkey : t.parent.PostHashHex = k := hco _ hk
    have hne : ¬ (N.PostHashHex = t.parent.PostHashHex) := by
      intro hh
      have hmem : k ∈ mapKeys s.threadMap :=
        List.mem_map.mpr ⟨(k, t), hk, rfl⟩
      rw [hkey] at hh
      rw [← hh] at hmem
      exact (mapGet_none_iff _ _).mp hN hmem
    simp [mapGet, hne]
  have hnd2 : ((mapValues s.threadMap).map (fun t => t.parent.PostHashHex)).Nodup := by
    rw [values_keys_of_coherent _ hco]
    exact hnd
  show mapValues (((ThreadManager.threadsRead s).1.2).foldl
      (fun m t => mapSet m t.parent.PostHashHex t)
      (mapSet [] N.PostHashHex (flattenThread N))) = _
  rw [threadsRead_values]
  rw [show mapSet [] N.PostHashHex (flattenThread N) =
      [(N.PostHashHex, flattenThread N)] from rfl]
  rw [mapValues_foldl_set _ _ hfresh hnd2]
  rfl

/-! ### Concrete fixtures for witnesses and counterexamples -/

def bEmptyArr : Post := .mk "b" (some []) 0 false
def aWithB : Post := .mk "a" (some [bEmptyArr]) 0 false
def pChain : Post := .mk "p" (some [aWithB]) 0 false

def bNullLeaf : Post := .mk "b" none 0 false
def aWithBNull : Post := .mk "a" (some [bNullLeaf]) 0 false
def pChainNull : Post := .mk "p" (some [aWithBNull]) 0 false

def cLeaf : Post := .mk "c" none 0 false
def rootC : Post := .mk "r" (some [cLeaf]) 0 false
def tmC : ThreadManager := ThreadManager.init rootC

def pQ : Post := .mk "q" none 7 false
def rNew : Post := .mk "R" none 0 false
def hideMe : Post := .mk "hm" none 0 false
def nFresh : Post := .mk "n" none 0 false

def xLeaf : Post := .mk "x" none 0 false
def cWithX : Post := .mk "c4" (some [xLeaf]) 1 false
def rootC4 : Post := .mk "r4" (some [cWithX]) 0 false
def tmC4 : ThreadManager := ThreadManager.init rootC4

def aEmptyArr5 : Post := .mk "a5" (some []) 5 false
def c5 : Post := .mk "c5" (some [aEmptyArr5]) 1 false
def root5 : Post := .mk "r5" (some [c5]) 0 false
def tm5 : ThreadManager := ThreadManager.init root5

def z6 : Post := .mk "z6" none 0 false
def y6 : Post := .mk "y6" (some [z6]) 5 false
def x6 : Post := .mk "x6" (some [y6]) 2 false
def c6p : Post := .mk "c6" (some [x6]) 1 false
def root6 : Post := .mk "r6" (some [c6p]) 0 false
def tm6 : ThreadManager := ThreadManager.init root6
def pRep : Post := .mk "y6" none 100 false

/-- The displayed count of a genuine post at a chain slot, if any. -/
def slotCount (t : Thread) (i : Nat) : Option Int :=
  match t.children[i]? with
  | some (some q) => some q.CommentCount
  | _ => none

/-! ### Claim theorems -/

/-- Claim C1.  The claim (and the spec's Flatten-chain property) says that
for `P` with `Comments = [A]`, `A.Comments = [B]`, `B.Comments = []`,
`flattenThread(P).children = [A, B]`, the walk never visiting or appending a
missing node.  Evaluating the code: when `Comments` is the *empty array*,
`Array.isArray` still holds and the walker recurses on `Comments[0] =
undefined`, passing the missing node to the callback, so the chain ends with
an `undefined` slot: `children = [A, B, undefined]`.  With `B.Comments =
null` the walk does stop cleanly with `[A, B]`.  The code contradicts its own
walker doc (`passes each comment in the tree`) and the declared
`children: Post[]` type: a code bug. -/
theorem C1_flatten_empty_comments_bug :
    flattenThread pChain = ⟨pChain, [some aWithB, some bEmptyArr, none]⟩
  ∧ flattenThread pChainNull = ⟨pChainNull, [some aWithBNull, some bNullLeaf]⟩ :=
  ⟨rfl, rfl⟩

/-- Claim C2 (amended).  Two consecutive reads of `threads` with no mutation
between them return the same array reference.  The structural mutators
`appendComment`, `prependComment`, `removeThread` and `reset` clear the array
cache, and the next read returns a fresh reference.  But `addReplyToComment`
and `hideComment` do not touch the cache or the allocator: the next read
returns the *same* array reference (the live `Thread` objects inside it were
mutated in place). -/
theorem C2_cache_discipline (s : ThreadManager) (c N p r cth pc : Post)
    (k tid : String) :
    (ThreadManager.threadsRead (ThreadManager.threadsRead s).2).1.1 =
        (ThreadManager.threadsRead s).1.1
  ∧ (ThreadManager.appendComment c s).threadArrayCache = none
  ∧ (ThreadManager.prependComment N s).threadArrayCache = none
  ∧ (ThreadManager.removeThread k s).threadArrayCache = none
  ∧ (ThreadManager.reset s).threadArrayCache = none
  ∧ (cacheWF s →
      (ThreadManager.threadsRead
        (ThreadManager.appendComment c (ThreadManager.threadsRead s).2)).1.1 ≠
        (ThreadManager.threadsRead s).1.1)
  ∧ (cacheWF s →
      (ThreadManager.threadsRead
        (ThreadManager.prependComment N (ThreadManager.threadsRead s).2)).1.1 ≠
        (ThreadManager.threadsRead s).1.1)
  ∧ (cacheWF s →
      (ThreadManager.threadsRead
        (ThreadManager.removeThread k (ThreadManager.threadsRead s).2)).1.1 ≠
        (ThreadManager.threadsRead s).1.1)
  ∧ (cacheWF s →
      (ThreadManager.threadsRead
        (ThreadManager.reset (ThreadManager.threadsRead s).2)).1.1 ≠
        (ThreadManager.threadsRead s).1.1)
  ∧ (∀ s', ThreadManager.addReplyToComment tid p r (ThreadManager.threadsRead s).2 =
        some s' →
      (ThreadManager.threadsRead s').1.1 = (ThreadManager.threadsRead s).1.1)
  ∧ (∀ po s', ThreadManager.hideComment cth pc tid (ThreadManager.threadsRead s).2 =
        (po, some s') →
      (ThreadManager.threadsRead s').1.1 = (ThreadManager.threadsRead s).1.1) := by
  have hc1 : ((ThreadManager.threadsRead s).2).threadArrayCache =
      some ((ThreadManager.threadsRead s).1.1) := threadsRead_cache_after s
  refine ⟨?_, rfl, rfl, rfl, rfl, ?_, ?_, ?_, ?_, ?_, ?_⟩
  · rw [threadsRead_of_cache_some _ _ hc1]
  · intro hwf
    have hlt := threadsRead_tag_lt s hwf
    rw [threadsRead_tag_of_none _ rfl]
    show ((ThreadManager.threadsRead s).2).nextRef ≠ _
    omega
  · intro hwf
    have hlt := threadsRead_tag_lt s hwf
    have hcn : (ThreadManager.prependComment N (ThreadManager.threadsRead s).2).threadArrayCache =
        none := rfl
    have hnn : (ThreadManager.prependComment N (ThreadManager.threadsRead s).2).nextRef =
        ((ThreadManager.threadsRead s).2).nextRef := by
      unfold ThreadManager.prependComment
      rw [threadsRead_of_cache_some _ _ hc1]
    rw [threadsRead_tag_of_none _ hcn, hnn]
    omega
  · intro hwf
    have hlt := threadsRead_tag_lt s hwf
    rw [threadsRead_tag_of_none _ rfl]
    show ((ThreadManager.threadsRead s).2).nextRef ≠ _
    omega
  · intro hwf
    have hlt := threadsRead_tag_lt s hwf
    rw [threadsRead_tag_of_none _ rfl]
    show ((ThreadManager.threadsRead s).2).nextRef ≠ _
    omega
  · intro s' h
    obtain ⟨T, t', hT, rfl, _⟩ := addReply_spec _ _ _ _ _ h
    have hc2 : (ThreadManager.setThread (ThreadManager.threadsRead s).2 tid t').threadArrayCache =
        some ((ThreadManager.threadsRead s).1.1) := by
      rw [setThread_cache]
      exact hc1
    rw [threadsRead_of_cache_some _ _ hc2]
  · intro po s' h
    have h2 : (ThreadManager.hideComment cth pc tid (ThreadManager.threadsRead s).2).2 =
        some s' := by rw [h]
    obtain ⟨T, t', hT, rfl, _⟩ := hide_spec _ _ _ _ _ h2
    have hc2 : (ThreadManager.setThread (ThreadManager.threadsRead s).2 tid t').threadArrayCache =
        some ((ThreadManager.threadsRead s).1.1) := by
      rw [setThread_cache]
      exact hc1
    rw [threadsRead_of_cache_some _ _ hc2]

/-- Claim C2, witness: on a concrete manager the cache discipline theorem
applies; after a read, an `appendComment` forces a fresh array reference. -/
theorem C2_witness :
    cacheWF tmC
  ∧ (ThreadManager.threadsRead
      (ThreadManager.appendComment pQ (ThreadManager.threadsRead tmC).2)).1.1 ≠
      (ThreadManager.threadsRead tmC).1.1 := by
  have hwf : cacheWF tmC := fun r hr => Option.noConfusion hr
  exact ⟨hwf, (C2_cache_discipline tmC pQ pQ pQ pQ pQ pQ "k" "c").2.2.2.2.2.1 hwf⟩

/-- Claim C2, counterexample to the claim as stated: `addReplyToComment` is a
mutating operation, yet reading `threads` right after it returns the *same*
array reference as the read before it (the claim demanded a newly built
array). -/
theorem C2_counterexample :
    (ThreadManager.addReplyToComment "c" cLeaf rNew (ThreadManager.threadsRead tmC).2).map
        (fun s2 => (ThreadManager.threadsRead s2).1.1) =
      some ((ThreadManager.threadsRead tmC).1.1) := rfl

/-- Claim C3 (amended).  With a registered thread, a `replyingToPost` id that
matches neither the thread id nor any (genuine) chain element is *not* a
silent no-op in `addReplyToComment`: `findIndex` yields `-1`, `slice(0, -1)`
drops the last slot and `slice(0, len)` copies the whole chain, so the chain
becomes `dropLast(children) ++ [copy of replyingToPost with count + 1] ++
children` (the parent is shallow-copied).  In `hideComment` a missed match
faults (`children[-1].CommentCount` on `undefined`) after setting `IsHidden`,
leaving the thread's counts and children unchanged. -/
theorem C3_no_match_not_noop (tid : String) (p r c : Post) (s : ThreadManager)
    (T : Thread)
    (hT : mapGet s.threadMap tid = some T)
    (hp : p.PostHashHex ≠ tid)
    (hall : ∀ o ∈ T.children, ∃ q, o = some q ∧ q.PostHashHex ≠ p.PostHashHex) :
    ThreadManager.addReplyToComment tid p r s =
      some (ThreadManager.setThread s tid
        ⟨T.parent,
         T.children.dropLast ++ some (p.withCount (p.CommentCount + 1)) :: T.children⟩)
  ∧ ThreadManager.hideComment c p tid s = (c.withHidden true, none) :=
  ⟨addReply_noMatch tid p r s T hT hp hall,
   hide_noMatch c p tid s T hT hp hall⟩

/-- Claim C3, witness: concrete no-match reply and hide on a registered
thread with an empty chain. -/
theorem C3_witness :
    (mapGet tmC.threadMap "c" = some ⟨cLeaf, []⟩)
  ∧ (pQ.PostHashHex ≠ "c")
  ∧ (ThreadManager.addReplyToComment "c" pQ rNew tmC =
      some (ThreadManager.setThread tmC "c"
        ⟨cLeaf, [some (pQ.withCount (pQ.CommentCount + 1))]⟩))
  ∧ (ThreadManager.hideComment hideMe pQ "c" tmC = (hideMe.withHidden true, none)) := by
  have h := C3_no_match_not_noop "c" pQ rNew hideMe tmC ⟨cLeaf, []⟩ rfl
    (by decide) (by simp)
  exact ⟨rfl, by decide, h.1, h.2⟩

/-- Claim C3, counterexample to the claim as stated: the no-match reply was
claimed to leave the chain's length unchanged (here `0`); the code gives a
chain of length `1`. -/
theorem C3_counterexample :
    ((ThreadManager.addReplyToComment "c" pQ rNew tmC).map
        (fun st => (mapGet st.threadMap "c").map (fun t => t.children.length))) =
      some (some 1)
  ∧ ¬ (((ThreadManager.addReplyToComment "c" pQ rNew tmC).map
        (fun st => (mapGet st.threadMap "c").map (fun t => t.children.length))) =
      some (some 0)) :=
  ⟨rfl, by decide⟩

/-- Claim C4.  For a registered thread whose chain ends in the genuine post
`X`, `addReplyToComment(T.id, X, R)` replaces the last slot by a shallow copy
of `X` with `CommentCount` incremented by exactly 1, appends `R` as the new
last element (length grows by one), keeps the parent's value unchanged (it is
shallow-copied for identity only) and leaves every earlier chain slot
untouched. -/
theorem C4_append_to_tail (tid : String) (R : Post) (s : ThreadManager)
    (T : Thread) (cs : List (Option Post)) (X : Post)
    (hT : mapGet s.threadMap tid = some T)
    (hc : T.children = cs ++ [some X]) :
    ThreadManager.addReplyToComment tid X R s =
      some (ThreadManager.setThread s tid
        ⟨T.parent, cs ++ [some (X.withCount (X.CommentCount + 1)), some R]⟩)
  ∧ (cs ++ [some (X.withCount (X.CommentCount + 1)), some R]).length =
      T.children.length + 1 := by
  refine ⟨addReply_tail tid X R s T cs X hT hc rfl, ?_⟩
  rw [hc]
  simp

/-- Claim C4, witness: concrete tail reply on a one-element chain. -/
theorem C4_witness :
    (mapGet tmC4.threadMap "c4" = some ⟨cWithX, [some xLeaf]⟩)
  ∧ (ThreadManager.addReplyToComment "c4" xLeaf rNew tmC4 =
      some (ThreadManager.setThread tmC4 "c4"
        ⟨cWithX, [some (xLeaf.withCount (xLeaf.CommentCount + 1)), some rNew]⟩)) := by
  have h := C4_append_to_tail "c4" rNew tmC4 ⟨cWithX, [some xLeaf]⟩ [] xLeaf rfl rfl
  exact ⟨rfl, h.1⟩

/-- Claim C5 (amended).  Replying to the thread root: if the chain is empty,
the parent is shallow-copied with its count incremented and the chain becomes
exactly `[R]`; if the chain is non-empty *with a genuine last slot* (whose id
differs from the thread id), the parent is copied with its count incremented
and the chain is unchanged, `R` appearing nowhere.  (When the last slot is
the `undefined` placeholder produced by flattening an empty `Comments` array,
the code instead takes the new-chain branch and resets the chain to `[R]` —
see the counterexample.) -/
theorem C5_reply_to_root (tid : String) (p R : Post) (s : ThreadManager)
    (T : Thread)
    (hT : mapGet s.threadMap tid = some T)
    (hp : p.PostHashHex = tid) :
    (T.children = [] →
      ThreadManager.addReplyToComment tid p R s =
        some (ThreadManager.setThread s tid
          ⟨T.parent.withCount (T.parent.CommentCount + 1), [some R]⟩))
  ∧ (∀ cs X, T.children = cs ++ [some X] → X.PostHashHex ≠ tid →
      ThreadManager.addReplyToComment tid p R s =
        some (ThreadManager.setThread s tid
          ⟨T.parent.withCount (T.parent.CommentCount + 1), T.children⟩)) :=
  ⟨fun hc => addReply_newChain tid p R s T hT hp hc,
   fun cs X hc hX => addReply_root tid p R s T cs X hT hc hp hX⟩

/-- Claim C5, witness: concrete reply to a root with no children yet. -/
theorem C5_witness :
    (mapGet tmC.threadMap "c" = some ⟨cLeaf, []⟩)
  ∧ (cLeaf.PostHashHex = "c")
  ∧ (ThreadManager.addReplyToComment "c" cLeaf rNew tmC =
      some (ThreadManager.setThread tmC "c"
        ⟨cLeaf.withCount (cLeaf.CommentCount + 1), [some rNew]⟩)) := by
  have h := C5_reply_to_root "c" cLeaf rNew tmC ⟨cLeaf, []⟩ rfl rfl
  exact ⟨rfl, rfl, h.1 rfl⟩

/-- Claim C5, counterexample to the claim as stated: a registered thread
whose chain is non-empty (`[a5, undefined]`, length 2 — the placeholder comes
from flattening `a5.Comments = []`) does *not* keep its chain when the root
is replied to: `lastChild` is the falsy `undefined`, the new-chain branch
fires, and the chain becomes `[R]` (length 1), violating `children
unchanged`. -/
theorem C5_counterexample :
    ((mapGet tm5.threadMap "c5").map (fun t => t.children.length) = some 2)
  ∧ (((ThreadManager.addReplyToComment "c5" c5 rNew tm5).map
        (fun st => (mapGet st.threadMap "c5").map (fun t => t.children.length))) =
      some (some 1))
  ∧ ¬ (((ThreadManager.addReplyToComment "c5" c5 rNew tm5).map
        (fun st => (mapGet st.threadMap "c5").map (fun t => t.children.length))) =
      some (some 2)) :=
  ⟨rfl, rfl, by decide⟩

/-- Claim C6 (amended).  Replying to a genuine mid-chain element (not the
last slot, ids unique along the chain) keeps the chain length, leaves every
other slot untouched, shallow-copies the parent, and does not insert the
reply — but the slot is replaced by a shallow copy of the *passed*
`replyingToPost` (with its count incremented by 1), not of the chain element;
the two differ whenever the caller's object disagrees with the chain's
current element beyond the id (see the counterexample). -/
theorem C6_mid_chain (tid : String) (p R : Post) (s : ThreadManager)
    (T : Thread) (as : List (Option Post)) (y : Post) (bs : List (Option Post))
    (hT : mapGet s.threadMap tid = some T)
    (hp : p.PostHashHex ≠ tid)
    (hc : T.children = as ++ some y :: bs)
    (hbs : bs ≠ [])
    (hpre : ∀ o ∈ as, ∃ q, o = some q ∧ q.PostHashHex ≠ p.PostHashHex)
    (hy : y.PostHashHex = p.PostHashHex)
    (hlast : ∀ q, bs.getLast? = some (some q) → q.PostHashHex ≠ p.PostHashHex) :
    ThreadManager.addReplyToComment tid p R s =
      some (ThreadManager.setThread s tid
        ⟨T.parent, as ++ some (p.withCount (p.CommentCount + 1)) :: bs⟩)
  ∧ (as ++ some (p.withCount (p.CommentCount + 1)) :: bs).length =
      T.children.length := by
  refine ⟨addReply_mid tid p R s T as y bs hT hp hc hbs hpre hy hlast, ?_⟩
  rw [hc]
  simp

/-- Claim C6, witness: concrete mid-chain reply on the chain `[x6, y6, z6]`,
passing the chain element itself. -/
theorem C6_witness :
    (mapGet tm6.threadMap "c6" = some ⟨c6p, [some x6, some y6, some z6]⟩)
  ∧ (y6.PostHashHex ≠ "c6")
  ∧ (ThreadManager.addReplyToComment "c6" y6 rNew tm6 =
      some (ThreadManager.setThread tm6 "c6"
        ⟨c6p, [some x6, some (y6.withCount (y6.CommentCount + 1)), some z6]⟩)) := by
  have hpre : ∀ o ∈ [some x6], ∃ q, o = some q ∧ q.PostHashHex ≠ y6.PostHashHex := by
    intro o ho
    rw [List.mem_singleton] at ho
    subst ho
    exact ⟨x6, rfl, by decide⟩
  have hlast : ∀ q, ([some z6] : List (Option Post)).getLast? = some (some q) →
      q.PostHashHex ≠ y6.PostHashHex := by
    intro q hq
    rw [List.getLast?_singleton, Option.some_inj, Option.some_inj] at hq
    subst hq
    decide
  have h := C6_mid_chain "c6" y6 rNew tm6 ⟨c6p, [some x6, some y6, some z6]⟩
    [some x6] y6 [some z6] rfl (by decide) rfl (by simp) hpre rfl hlast
  exact ⟨rfl, by decide, h.1⟩

/-- Claim C6, counterexample to the claim as stated: replying with a post
that shares the chain element's id (`y6`, stored count 5) but carries count
100 leaves the slot holding `101` — a copy of the passed object incremented —
where the claim demanded `6`, a copy of the chain element incremented. -/
theorem C6_counterexample :
    ((ThreadManager.addReplyToComment "c6" pRep rNew tm6).map
        (fun st => (mapGet st.threadMap "c6").map (fun t => slotCount t 1))) =
      some (some (some 101))
  ∧ ¬ (((ThreadManager.addReplyToComment "c6" pRep rNew tm6).map
        (fun st => (mapGet st.threadMap "c6").map (fun t => slotCount t 1))) =
      some (some (some 6))) :=
  ⟨rfl, by decide⟩

/-- Claim C7.  `hideComment(C, P, T.id)` always sets `C.IsHidden` to `true`
on the passed post (in the source this is the one in-place `Post` mutation;
here the updated value is returned as the first component).  The count
decrement by exactly 1 lands on `T.parent` when `P.id` equals the thread id,
and otherwise on the first (for unique ids: the) genuine chain element whose
id equals `P.id`, replaced at its position by a shallow copy carrying the
decremented count, all other chain slots untouched. -/
theorem C7_hide_decrements (c p : Post) (tid : String) (s : ThreadManager)
    (T : Thread) (hT : mapGet s.threadMap tid = some T) :
    ((ThreadManager.hideComment c p tid s).1 = c.withHidden true ∧
      (c.withHidden true).IsHidden = true)
  ∧ (p.PostHashHex = tid →
      ThreadManager.hideComment c p tid s =
        (c.withHidden true,
         some (ThreadManager.setThread s tid
           ⟨T.parent.withCount (T.parent.CommentCount - 1), T.children⟩)))
  ∧ (∀ as y bs, p.PostHashHex ≠ tid → T.children = as ++ some y :: bs →
      (∀ o ∈ as, ∃ q, o = some q ∧ q.PostHashHex ≠ p.PostHashHex) →
      y.PostHashHex = p.PostHashHex →
      ThreadManager.hideComment c p tid s =
        (c.withHidden true,
         some (ThreadManager.setThread s tid
           ⟨T.parent, as ++ some (y.withCount (y.CommentCount - 1)) :: bs⟩))) :=
  ⟨⟨rfl, by simp⟩,
   fun hp => hide_root c p tid s T hT hp,
   fun as y bs hp hc hpre hy => hide_chain c p tid s T as y bs hT hp hc hpre hy⟩

/-- Claim C7, witness: concrete hide with the chain element `x6` as the
parent of the hidden comment. -/
theorem C7_witness :
    (mapGet tm6.threadMap "c6" = some ⟨c6p, [some x6, some y6, some z6]⟩)
  ∧ (x6.PostHashHex ≠ "c6")
  ∧ (ThreadManager.hideComment hideMe x6 "c6" tm6 =
      (hideMe.withHidden true,
       some (ThreadManager.setThread tm6 "c6"
         ⟨c6p, [some (x6.withCount (x6.CommentCount - 1)), some y6, some z6]⟩))) := by
  have h := C7_hide_decrements hideMe x6 "c6" tm6 ⟨c6p, [some x6, some y6, some z6]⟩ rfl
  refine ⟨rfl, by decide, ?_⟩
  exact h.2.2 [] x6 [some y6, some z6] (by decide) rfl (by simp) rfl

/-- Claim C8.  In every reachable manager state, prepending a comment whose
id is not yet a key puts its flattened thread first and keeps all previously
present threads in exactly their previous relative order; the new first
thread's parent is the prepended post itself. -/
theorem C8_prepend_order (s : ThreadManager) (h : Reachable s) (N : Post)
    (hN : mapGet s.threadMap N.PostHashHex = none) :
    mapValues (ThreadManager.prependComment N s).threadMap =
      flattenThread N :: mapValues s.threadMap
  ∧ (flattenThread N).parent = N :=
  ⟨prepend_values s N (reachable_keyCoherent h) (reachable_keysNodup h) hN, rfl⟩

/-- Claim C8, witness: concrete prepend of a fresh post on a constructed
manager. -/
theorem C8_witness :
    Reachable tmC
  ∧ (mapGet tmC.threadMap nFresh.PostHashHex = none)
  ∧ mapValues (ThreadManager.prependComment nFresh tmC).threadMap =
      flattenThread nFresh :: mapValues tmC.threadMap := by
  have hr : Reachable tmC := Reachable.construct rootC
  exact ⟨hr, rfl, (C8_prepend_order tmC hr nFresh rfl).1⟩

/-- Claim C9.  A thread id that is not a key of the map makes both
`addReplyToComment` and `hideComment` fault with an undefined-access
`TypeError` (modelled as the `none` result): they dereference fields of the
looked-up thread unconditionally and never complete silently. -/
theorem C9_unknown_thread_faults (tid : String) (p r c pc : Post)
    (s : ThreadManager) (h : mapGet s.threadMap tid = none) :
    ThreadManager.addReplyToComment tid p r s = none
  ∧ (ThreadManager.hideComment c pc tid s).2 = none :=
  ⟨addReply_unknown tid p r s h, by rw [hide_unknown c pc tid s h]⟩

/-- Claim C9, witness: a concrete unknown id on a constructed manager. -/
theorem C9_witness :
    (mapGet tmC.threadMap "zz" = none)
  ∧ (ThreadManager.addReplyToComment "zz" pQ rNew tmC = none
     ∧ (ThreadManager.hideComment hideMe pQ "zz" tmC).2 = none) :=
  ⟨rfl, C9_unknown_thread_faults "zz" pQ rNew hideMe pQ tmC rfl⟩

/-- Claim C10.  In every reachable manager state, each map entry's key equals
its thread's `parent.PostHashHex`: construction and the structural operations
store flattened threads under their parent's hash, and the reply/hide
operations replace the parent only by shallow copies that preserve
`PostHashHex`. -/
theorem C10_map_key_coherence (s : ThreadManager) (h : Reachable s) :
    ∀ e ∈ s.threadMap, e.2.parent.PostHashHex = e.1 :=
  fun e he => reachable_keyCoherent h e he

/-- Claim C10, witness: the invariant evaluated on a concrete constructed
manager. -/
theorem C10_witness :
    Reachable tmC ∧ (∀ e ∈ tmC.threadMap, e.2.parent.PostHashHex = e.1) := by
  have hr : Reachable tmC := Reachable.construct rootC
  exact ⟨hr, C10_map_key_coherence tmC hr⟩
